import Mathlib

/-! Verification of the packaging orchestration core of `rfmp` (`src/main.rs`).

Paths are modelled as lists of components (`Rust` `Path` components), so the
walk root `.` is the path `["."]` and `./src/main.txt` is
`[".", "src", "main.txt"]`.  The source tree is a nested inductive tree whose
`err` nodes stand for directory entries on which the underlying `walkdir`
iterator reports an `Err` (permission denied, broken symlink, concurrent
deletion).  Effectful code is embedded as functions returning the list of
observable events (printed lines, deletions, archive `add` calls) together
with an optional fatal panic.
-/

namespace Rfmp

abbrev FsPath := List String

inductive EntryKind where
  | file
  | dir
deriving DecidableEq, Repr

/-- A source tree as seen by the `walkdir` iterator: regular files,
directories with an ordered child list, and `err` nodes standing for
entries whose read failed (yielded as `Err` by the iterator). -/
inductive FsTree where
  | file (name : String)
  | err (msg : String)
  | dir (name : String) (children : List FsTree)
deriving Repr

/-- One item yielded by the raw `WalkDir` iterator: either a path with its
kind, or a walk error. -/
abbrev WalkItem := Except String (FsPath × EntryKind)

/-- Function `is_filename_eq` from `src/main.rs`: the entry file name compared to the
output archive file name. -/
def is_filename_eq (filename : String) (rhs : String) : Bool :=
  filename == rhs

/-- Function `is_hidden` from `src/main.rs`: the entry is not the traversal root `.`
and its file name starts with a dot (Rust `starts_with('.')`, a check on the
first character). -/
def is_hidden (path : FsPath) (filename : String) : Bool :=
  (path != ["."]) && (filename.data.head? == some '.')

/-- Function `is_in_excludes` from `src/main.rs`: some exclusion path is a
component-wise prefix of the entry path (Rust `Path::starts_with`). -/
def is_in_excludes (path : FsPath) (excludes : List FsPath) : Bool :=
  excludes.any (fun e => e.isPrefixOf path)

/-- Function `walkdir_filter` from `src/main.rs`: an entry is rejected when its file
name equals the output archive name, or it is hidden, or it is excluded. -/
def walkdir_filter (path : FsPath) (filename : String)
    (zip_file_name : String) (excludes : List FsPath) : Bool :=
  is_filename_eq filename zip_file_name
    || is_hidden path filename
    || is_in_excludes path excludes

mutual

/-- The raw `WalkDir::new(".").into_iter().filter_entry(...)` stream on one
subtree: pre-order, the rejected entries pruned together with their whole
subtree, walk errors yielded inline. -/
def walkdir_raw (zip_file_name : String) (excludes : List FsPath)
    (parent : FsPath) : FsTree → List WalkItem
  | FsTree.err m => [Except.error m]
  | FsTree.file n =>
    if walkdir_filter (parent ++ [n]) n zip_file_name excludes then []
    else [Except.ok (parent ++ [n], EntryKind.file)]
  | FsTree.dir n cs =>
    if walkdir_filter (parent ++ [n]) n zip_file_name excludes then []
    else
      Except.ok (parent ++ [n], EntryKind.dir) ::
        walkdir_raw_list zip_file_name excludes (parent ++ [n]) cs

/-- The concatenated raw walk streams of a directory's children. -/
def walkdir_raw_list (zip_file_name : String) (excludes : List FsPath)
    (parent : FsPath) : List FsTree → List WalkItem
  | [] => []
  | t :: ts =>
    walkdir_raw zip_file_name excludes parent t ++
      walkdir_raw_list zip_file_name excludes parent ts

end

/-- The `filter_map` stage of `make_walkdir_iter`: `Ok` entries pass through
as paths, `Err` entries are reported on stderr and dropped.  Returns the
surviving entries together with the reported error messages. -/
def walk_filter_map : List WalkItem → List (FsPath × EntryKind) × List String
  | [] => ([], [])
  | Except.ok e :: rest =>
    let next := walk_filter_map rest
    (e :: next.1, next.2)
  | Except.error m :: rest =>
    let next := walk_filter_map rest
    (next.1, m :: next.2)

/-- Function `make_walkdir_iter` from `src/main.rs`: walk the current directory
(modelled as a directory named `.` with the given children), filter,
drop errors, and `skip(1)`. -/
def make_walkdir_iter (zip_file_name : String) (excludes : List FsPath)
    (rootChildren : List FsTree) : List (FsPath × EntryKind) :=
  ((walk_filter_map
      (walkdir_raw zip_file_name excludes [] (FsTree.dir "." rootChildren))).1).drop 1

/-- The reported walk errors of `make_walkdir_iter` (the `eprintln` lines of
its `filter_map` stage). -/
def walk_errors (zip_file_name : String) (excludes : List FsPath)
    (rootChildren : List FsTree) : List String :=
  (walk_filter_map
      (walkdir_raw zip_file_name excludes [] (FsTree.dir "." rootChildren))).2

/-- Model of `path.strip_prefix("./")` from the packing loop in `main`. -/
def strip_dot_slash : FsPath → Option FsPath
  | "." :: rest => some rest
  | _ => none

/-- The panics (`expect` / `unwrap`) the orchestration core can hit. -/
inductive Fatal where
  | stripPanic
  | dirMetaPanic
  | removeFilePanic
  | globConstructPanic
deriving DecidableEq, Repr

/-- A request handed to the archive emitter (`mtzip`). -/
inductive ZipCall where
  | addFile (src : FsPath) (zipPath : FsPath)
  | addDirMeta (zipPath : FsPath) (src : FsPath)
deriving DecidableEq, Repr

def isAddFile : ZipCall → Bool
  | ZipCall.addFile _ _ => true
  | ZipCall.addDirMeta _ _ => false

/-- The packing loop of `main` (`for path in walkdir { ... }`): strip the
`./` prefix (panicking if absent), re-root under the qualified name, add
files, and add directories with metadata where the metadata copy may fail
(`metaFail`) and is unwrapped. -/
def packLoop (qualified_name : String) (metaFail : FsPath → Bool) :
    List (FsPath × EntryKind) → List ZipCall × Option Fatal
  | [] => ([], none)
  | (p, EntryKind.file) :: rest =>
    match strip_dot_slash p with
    | none => ([], some Fatal.stripPanic)
    | some r =>
      let next := packLoop qualified_name metaFail rest
      (ZipCall.addFile p (qualified_name :: r) :: next.1, next.2)
  | (p, EntryKind.dir) :: rest =>
    match strip_dot_slash p with
    | none => ([], some Fatal.stripPanic)
    | some r =>
      if p.isEmpty then packLoop qualified_name metaFail rest
      else if metaFail p then ([], some Fatal.dirMetaPanic)
      else
        let next := packLoop qualified_name metaFail rest
        (ZipCall.addDirMeta (qualified_name :: r) p :: next.1, next.2)

/-- One match produced by the stale-version glob in `remove_old_versions`:
its path, whether it is a regular file, and whether `fs::remove_file` on it
would succeed. -/
structure GlobMatch where
  path : FsPath
  isFile : Bool
  removeOk : Bool
deriving DecidableEq, Repr

/-- The observable events of the orchestration core: printed lines,
deletions, and archive `add` calls. -/
inductive Ev where
  | janitorPrint (p : FsPath)
  | janitorRemove (p : FsPath)
  | janitorSkip (p : FsPath)
  | purgePrint
  | purgeRemoveFile
  | purgeRemoveDir
  | addDirRoot
  | addEntry (c : ZipCall)
deriving DecidableEq, Repr

def isAddEv : Ev → Bool
  | Ev.addDirRoot => true
  | Ev.addEntry _ => true
  | _ => false

def isPurgeEv : Ev → Bool
  | Ev.purgePrint => true
  | Ev.purgeRemoveFile => true
  | Ev.purgeRemoveDir => true
  | _ => false

/-- The `for entry in mod_glob.filter_map(Result::ok)` loop body of
`remove_old_versions`: print the removal line, then delete regular files
(`expect` panics when removal fails) and report non-files on stderr. -/
def janitorLoop : List GlobMatch → List Ev × Option Fatal
  | [] => ([], none)
  | m :: rest =>
    if m.isFile then
      if m.removeOk then
        let next := janitorLoop rest
        (Ev.janitorPrint m.path :: Ev.janitorRemove m.path :: next.1, next.2)
      else ([Ev.janitorPrint m.path], some Fatal.removeFilePanic)
    else
      let next := janitorLoop rest
      (Ev.janitorPrint m.path :: Ev.janitorSkip m.path :: next.1, next.2)

/-- Rust `Result::ok`, the function `filter_map` is given in
`remove_old_versions`. -/
def resultOk : Except String GlobMatch → Option GlobMatch
  | Except.ok m => some m
  | Except.error _ => none

/-- Function `remove_old_versions` from `src/main.rs`.  Its input is the result of
`glob(..)`: either a construction error (the `expect` panics) or the list of
per-entry enumeration results, whose `Err` elements `filter_map(Result::ok)`
drops before the loop runs. -/
def remove_old_versions :
    Except String (List (Except String GlobMatch)) → List Ev × Option Fatal
  | Except.error _ => ([], some Fatal.globConstructPanic)
  | Except.ok entries => janitorLoop (entries.filterMap resultOk)

/-- What `fs::metadata` would report at the output path
`<target>/<name>_<version>.zip` before the pre-write purge runs. -/
inductive TargetKind where
  | file
  | dir
  | absent
deriving DecidableEq, Repr

/-- The pre-write purge of `main` (the `if target_zip_file.exists()` block):
print, then remove the file or directory.  Returns its events and what is
left at the output path. -/
def purge_target : TargetKind → List Ev × TargetKind
  | TargetKind.absent => ([], TargetKind.absent)
  | TargetKind.file => ([Ev.purgePrint, Ev.purgeRemoveFile], TargetKind.absent)
  | TargetKind.dir => ([Ev.purgePrint, Ev.purgeRemoveDir], TargetKind.absent)

/-- The effect trace of `main` after target resolution and metadata parsing:
optional janitor step, pre-write purge of the output path, the root
directory `add`, then one `add` per packing-loop call. -/
def main_run (keepOldVersions : Bool)
    (globInput : Except String (List (Except String GlobMatch)))
    (targetKind : TargetKind) (qualified_name : String)
    (zip_file_name : String) (excludes : List FsPath)
    (rootChildren : List FsTree) (metaFail : FsPath → Bool) :
    List Ev × Option Fatal :=
  let jan := if keepOldVersions then ([], none)
             else remove_old_versions globInput
  match jan.2 with
  | some f => (jan.1, some f)
  | none =>
    let purge := purge_target targetKind
    let pack := packLoop qualified_name metaFail
      (make_walkdir_iter zip_file_name excludes rootChildren)
    (jan.1 ++ purge.1 ++ Ev.addDirRoot :: pack.1.map Ev.addEntry, pack.2)

/-- The spec's hidden-entry example: a root with `.git/` (holding a whole
subtree of non-dotted entries), `.env` and `src/main.txt`. -/
def hiddenExampleTree : List FsTree :=
  [FsTree.dir ".git"
     [FsTree.file "config",
      FsTree.dir "objects" [FsTree.file "aa0b"]],
   FsTree.file ".env",
   FsTree.dir "src" [FsTree.file "main.txt"]]

/-- A root with a `build/` directory to be excluded and a `src/` payload. -/
def excludeExampleTree : List FsTree :=
  [FsTree.dir "build" [FsTree.file "a.txt"],
   FsTree.dir "src" [FsTree.file "main.txt"]]

/-- A re-run scenario: the source directory already holds the previous
output archive `foo_1.0.0.zip`. -/
def rerunExampleTree : List FsTree :=
  [FsTree.file "foo_1.0.0.zip",
   FsTree.dir "src" [FsTree.file "main.txt"]]

/-- The events the janitor loop emits for one successfully enumerated glob
match: the removal line first, then either the deletion or the skip
report. -/
def janitor_events_for (m : GlobMatch) : List Ev :=
  Ev.janitorPrint m.path ::
    (if m.isFile then [Ev.janitorRemove m.path] else [Ev.janitorSkip m.path])

/-! Lemmas about the filtered traversal. -/

/-- Every `Ok` item of a child-list walk comes from the walk of one child. -/
theorem walkdir_raw_list_mem {zfn : String} {ex : List FsPath}
    {parent : FsPath} {ts : List FsTree} {it : WalkItem}
    (h : it ∈ walkdir_raw_list zfn ex parent ts) :
    ∃ t, t ∈ ts ∧ it ∈ walkdir_raw zfn ex parent t := by
  induction ts with
  | nil => simp [walkdir_raw_list] at h
  | cons t ts ih =>
    rw [walkdir_raw_list] at h
    rcases List.mem_append.mp h with h1 | h2
    · exact ⟨t, List.mem_cons_self t ts, h1⟩
    · obtain ⟨u, hu, hit⟩ := ih h2
      exact ⟨u, List.mem_cons_of_mem t hu, hit⟩

/-- Shape of every `Ok` entry of the filtered raw walk: its path extends the
parent by at least one component, ends in the entry's file name, and that
entry passed `walkdir_filter`. -/
theorem walkdir_raw_ok_shape (zfn : String) (ex : List FsPath) :
    ∀ (parent : FsPath) (t : FsTree), ∀ p k,
      Except.ok (p, k) ∈ walkdir_raw zfn ex parent t →
      ∃ q n, p = q ++ [n] ∧ parent <+: q ∧
        walkdir_filter p n zfn ex = false := by
  refine walkdir_raw.induct zfn ex
    (fun parent t => ∀ p k, Except.ok (p, k) ∈ walkdir_raw zfn ex parent t →
      ∃ q n, p = q ++ [n] ∧ parent <+: q ∧ walkdir_filter p n zfn ex = false)
    (fun parent ts => ∀ p k,
      Except.ok (p, k) ∈ walkdir_raw_list zfn ex parent ts →
      ∃ q n, p = q ++ [n] ∧ parent <+: q ∧ walkdir_filter p n zfn ex = false)
    ?_ ?_ ?_ ?_ ?_ ?_ ?_
  · intro parent m p k h
    simp [walkdir_raw] at h
  · intro parent n hrej p k h
    rw [walkdir_raw, if_pos hrej] at h
    simp at h
  · intro parent n hrej p k h
    rw [walkdir_raw, if_neg hrej] at h
    simp at h
    exact ⟨parent, n, h.1, List.prefix_refl parent,
      Bool.not_eq_true _ ▸ by simpa [h.1] using hrej⟩
  · intro parent n cs hrej p k h
    rw [walkdir_raw, if_pos hrej] at h
    simp at h
  · intro parent n cs hrej ih p k h
    rw [walkdir_raw, if_neg hrej] at h
    rcases List.mem_cons.mp h with h1 | h2
    · have hp : p = parent ++ [n] := by
        simpa using congrArg (fun it => match it with
          | Except.ok (q, _) => q
          | Except.error _ => p) h1
      refine ⟨parent, n, hp, List.prefix_refl parent, ?_⟩
      simpa [hp] using hrej
    · obtain ⟨q, m, hp, hpre, hflt⟩ := ih p k h2
      exact ⟨q, m, hp,
        List.IsPrefix.trans (List.prefix_append parent [n]) hpre, hflt⟩
  · intro parent p k h
    simp [walkdir_raw_list] at h
  · intro parent t ts ih1 ih2 p k h
    rw [walkdir_raw_list] at h
    rcases List.mem_append.mp h with h1 | h2
    · exact ih1 p k h1
    · exact ih2 p k h2

/-- Every surviving entry of the `filter_map` stage was an `Ok` item of the
raw stream. -/
theorem walk_filter_map_fst_mem {items : List WalkItem}
    {e : FsPath × EntryKind} (h : e ∈ (walk_filter_map items).1) :
    Except.ok e ∈ items := by
  induction items with
  | nil => simp [walk_filter_map] at h
  | cons it rest ih =>
    cases it with
    | ok x =>
      rw [walk_filter_map] at h
      rcases List.mem_cons.mp h with h1 | h2
      · exact h1 ▸ List.mem_cons_self _ _
      · exact List.mem_cons_of_mem _ (ih h2)
    | error m =>
      rw [walk_filter_map] at h
      exact List.mem_cons_of_mem _ (ih h)

/-- Unfolding of `make_walkdir_iter`: the root entry is the first surviving
item and `skip(1)` removes exactly it; a rejected root prunes everything. -/
theorem make_walkdir_iter_unfold (zfn : String) (ex : List FsPath)
    (cs : List FsTree) :
    make_walkdir_iter zfn ex cs =
      if walkdir_filter ["."] "." zfn ex then []
      else (walk_filter_map (walkdir_raw_list zfn ex ["."] cs)).1 := by
  rw [make_walkdir_iter, walkdir_raw]
  by_cases hr : walkdir_filter ([] ++ ["."]) "." zfn ex
  · rw [if_pos hr, if_pos (by simpa using hr)]
    simp [walk_filter_map]
  · rw [if_neg hr, if_neg (by simpa using hr)]
    rw [walk_filter_map]
    simp

/-- Shape of every entry yielded by `make_walkdir_iter`: the path is the
root `.` followed by a nonempty relative path whose last component is the
entry's file name, and the entry passed `walkdir_filter`. -/
theorem make_walkdir_iter_mem {zfn : String} {ex : List FsPath}
    {cs : List FsTree} {p : FsPath} {k : EntryKind}
    (h : (p, k) ∈ make_walkdir_iter zfn ex cs) :
    ∃ q n, p = "." :: (q ++ [n]) ∧ walkdir_filter p n zfn ex = false := by
  rw [make_walkdir_iter_unfold] at h
  by_cases hr : walkdir_filter ["."] "." zfn ex
  · rw [if_pos hr] at h
    simp at h
  · rw [if_neg hr] at h
    obtain ⟨t, _, hit⟩ := walkdir_raw_list_mem (walk_filter_map_fst_mem h)
    obtain ⟨q, n, hp, hpre, hflt⟩ :=
      walkdir_raw_ok_shape zfn ex ["."] t p k hit
    obtain ⟨q0, hq0⟩ := hpre
    refine ⟨q0, n, ?_, hflt⟩
    rw [hp, ← hq0]
    rfl

/-- A nonempty prefix of a singleton is the whole singleton. -/
theorem prefix_singleton_eq {q : FsPath} {m n : String}
    (hq : q ++ [m] <+: [n]) : q = [] ∧ m = n := by
  obtain ⟨t, ht⟩ := hq
  cases q with
  | nil =>
    simp at ht
    exact ⟨rfl, ht.1⟩
  | cons a as =>
    exfalso
    have hlen := congrArg List.length ht
    simp at hlen

/-- Unpacking a passed filter into its three component checks. -/
theorem walkdir_filter_eq_false {p : FsPath} {n zfn : String}
    {ex : List FsPath} (h : walkdir_filter p n zfn ex = false) :
    is_filename_eq n zfn = false ∧ is_hidden p n = false ∧
      is_in_excludes p ex = false := by
  rcases Bool.or_eq_false_iff.mp h with ⟨h1, h3⟩
  rcases Bool.or_eq_false_iff.mp h1 with ⟨ha, hb⟩
  exact ⟨ha, hb, h3⟩

/-- Strong shape of every `Ok` entry of the filtered raw walk: not only the
entry itself, but every ancestor node of it below `parent` passed
`walkdir_filter` — the walk never descends into a rejected directory, so
nothing beneath one is visited or emitted. -/
theorem walkdir_raw_ok_ancestors (zfn : String) (ex : List FsPath) :
    ∀ (parent : FsPath) (t : FsTree), ∀ p k,
      Except.ok (p, k) ∈ walkdir_raw zfn ex parent t →
      ∃ rel, p = parent ++ rel ∧ rel ≠ [] ∧
        ∀ q m, q ++ [m] <+: rel →
          walkdir_filter (parent ++ (q ++ [m])) m zfn ex = false := by
  refine walkdir_raw.induct zfn ex
    (fun parent t => ∀ p k, Except.ok (p, k) ∈ walkdir_raw zfn ex parent t →
      ∃ rel, p = parent ++ rel ∧ rel ≠ [] ∧
        ∀ q m, q ++ [m] <+: rel →
          walkdir_filter (parent ++ (q ++ [m])) m zfn ex = false)
    (fun parent ts => ∀ p k,
      Except.ok (p, k) ∈ walkdir_raw_list zfn ex parent ts →
      ∃ rel, p = parent ++ rel ∧ rel ≠ [] ∧
        ∀ q m, q ++ [m] <+: rel →
          walkdir_filter (parent ++ (q ++ [m])) m zfn ex = false)
    ?_ ?_ ?_ ?_ ?_ ?_ ?_
  · intro parent m p k h
    simp [walkdir_raw] at h
  · intro parent n hrej p k h
    rw [walkdir_raw, if_pos hrej] at h
    simp at h
  · intro parent n hrej p k h
    rw [walkdir_raw, if_neg hrej] at h
    simp at h
    have hrej' : walkdir_filter (parent ++ [n]) n zfn ex = false := by
      simpa using hrej
    refine ⟨[n], h.1, by simp, ?_⟩
    intro q m hq
    obtain ⟨hq0, hmn⟩ := prefix_singleton_eq hq
    subst hq0
    rw [hmn]
    simpa using hrej'
  · intro parent n cs hrej p k h
    rw [walkdir_raw, if_pos hrej] at h
    simp at h
  · intro parent n cs hrej ih p k h
    have hrej' : walkdir_filter (parent ++ [n]) n zfn ex = false := by
      simpa using hrej
    rw [walkdir_raw, if_neg hrej] at h
    rcases List.mem_cons.mp h with h1 | h2
    · have hp : p = parent ++ [n] := by
        simpa using congrArg (fun it => match it with
          | Except.ok (q, _) => q
          | Except.error _ => p) h1
      refine ⟨[n], hp, by simp, ?_⟩
      intro q m hq
      obtain ⟨hq0, hmn⟩ := prefix_singleton_eq hq
      subst hq0
      rw [hmn]
      simpa using hrej'
    · obtain ⟨rel, hp, hne, hall⟩ := ih p k h2
      refine ⟨n :: rel, by rw [hp]; simp, by simp, ?_⟩
      intro q m hq
      cases q with
      | nil =>
        obtain ⟨t, ht⟩ := hq
        simp at ht
        rw [ht.1]
        simpa using hrej'
      | cons a q2 =>
        have hx : a :: (q2 ++ [m]) <+: n :: rel := by simpa using hq
        obtain ⟨ha, hpre⟩ := List.cons_prefix_cons.mp hx
        have hres := hall q2 m hpre
        have hpath : parent ++ (a :: q2 ++ [m]) =
            (parent ++ [n]) ++ (q2 ++ [m]) := by
          rw [ha]
          simp
        rw [hpath]
        exact hres
  · intro parent p k h
    simp [walkdir_raw_list] at h
  · intro parent t ts ih1 ih2 p k h
    rw [walkdir_raw_list] at h
    rcases List.mem_append.mp h with h1 | h2
    · exact ih1 p k h1
    · exact ih2 p k h2

/-- No entry yielded by `make_walkdir_iter` is a dot-named entry or lies
anywhere beneath one: every component of its root-relative path was a node
accepted by the filter, so none begins with a dot. -/
theorem make_walkdir_iter_no_hidden_ancestor {zfn : String}
    {ex : List FsPath} {cs : List FsTree} {p : FsPath} {k : EntryKind}
    (h : (p, k) ∈ make_walkdir_iter zfn ex cs) :
    ∃ rel, p = "." :: rel ∧ rel ≠ [] ∧
      ∀ c ∈ rel, c.data.head? ≠ some '.' := by
  rw [make_walkdir_iter_unfold] at h
  by_cases hr : walkdir_filter ["."] "." zfn ex
  · rw [if_pos hr] at h
    simp at h
  · rw [if_neg hr] at h
    obtain ⟨t, _, hit⟩ := walkdir_raw_list_mem (walk_filter_map_fst_mem h)
    obtain ⟨rel, hp, hne, hall⟩ :=
      walkdir_raw_ok_ancestors zfn ex ["."] t p k hit
    refine ⟨rel, by simpa using hp, hne, ?_⟩
    intro c hc
    obtain ⟨s, t2, hst⟩ := List.append_of_mem hc
    have hpre : s ++ [c] <+: rel := ⟨t2, by rw [hst]; simp⟩
    have hhid := (walkdir_filter_eq_false (hall s c hpre)).2.1
    rw [is_hidden] at hhid
    rcases Bool.and_eq_false_iff.mp hhid with h1 | h2
    · exfalso
      have heq : (["."] : FsPath) ++ (s ++ [c]) = ["."] :=
        bne_eq_false_iff_eq.mp h1
      have := congrArg List.length heq
      simp at this
    · intro hceq
      rw [hceq] at h2
      simp at h2

/-- The boolean component-prefix check holds on every true list prefix. -/
theorem isPrefixOf_eq_true : ∀ {l1 l2 : FsPath}, l1 <+: l2 →
    l1.isPrefixOf l2 = true := by
  intro l1
  induction l1 with
  | nil => intro l2 _; cases l2 <;> rfl
  | cons a as ih =>
    intro l2 h
    obtain ⟨t, ht⟩ := h
    rw [← ht]
    simp only [List.cons_append, List.isPrefixOf_cons₂_self]
    exact ih ⟨t, rfl⟩

/-- An entry that passed the exclusion check is neither an excluded path
nor beneath one. -/
theorem not_excluded_of_check {p : FsPath} {ex : List FsPath}
    (h : is_in_excludes p ex = false) : ∀ e ∈ ex, ¬ e <+: p := by
  intro e he hpre
  have := List.any_eq_false.mp h e he
  exact this (isPrefixOf_eq_true hpre)

/-- Inversion of the `./`-prefix strip: success means the path started with
the `.` component. -/
theorem strip_dot_slash_some {p r : FsPath} (h : strip_dot_slash p = some r) :
    p = "." :: r := by
  unfold strip_dot_slash at h
  split at h
  · injection h with h; rw [h]
  · exact absurd h (by simp)

/-- Unfolding `packLoop` on a file entry rooted at `.`. -/
theorem packLoop_cons_file (qn : String) (mf : FsPath → Bool) (r : FsPath)
    (rest : List (FsPath × EntryKind)) :
    packLoop qn mf (("." :: r, EntryKind.file) :: rest) =
      (ZipCall.addFile ("." :: r) (qn :: r) :: (packLoop qn mf rest).1,
        (packLoop qn mf rest).2) := by
  rw [packLoop]
  simp [strip_dot_slash]

/-- Unfolding `packLoop` on a directory entry rooted at `.`. -/
theorem packLoop_cons_dir (qn : String) (mf : FsPath → Bool) (r : FsPath)
    (rest : List (FsPath × EntryKind)) :
    packLoop qn mf (("." :: r, EntryKind.dir) :: rest) =
      if mf ("." :: r) then ([], some Fatal.dirMetaPanic)
      else (ZipCall.addDirMeta (qn :: r) ("." :: r) :: (packLoop qn mf rest).1,
        (packLoop qn mf rest).2) := by
  rw [packLoop]
  simp [strip_dot_slash]

/-- Every path in the `packLoop` input that is rooted at `.` contributes
`addFile` calls whose archive path is the qualified name over the relative
path. -/
theorem packLoop_addFile_shape (qn : String) (mf : FsPath → Bool) :
    ∀ entries : List (FsPath × EntryKind),
      (∀ p k, (p, k) ∈ entries → ∃ r : FsPath, p = "." :: r) →
      ∀ src zp, ZipCall.addFile src zp ∈ (packLoop qn mf entries).1 →
        ∃ rel, src = "." :: rel ∧ zp = qn :: rel := by
  intro entries
  induction entries with
  | nil => intro _ src zp h; simp [packLoop] at h
  | cons e rest ih =>
    intro hroot src zp h
    obtain ⟨p, k⟩ := e
    obtain ⟨r, hr⟩ := hroot p k (List.mem_cons_self _ _)
    subst hr
    have hrest : ∀ p k, (p, k) ∈ rest → ∃ r : FsPath, p = "." :: r :=
      fun p k hm => hroot p k (List.mem_cons_of_mem _ hm)
    cases k with
    | file =>
      rw [packLoop_cons_file] at h
      rcases List.mem_cons.mp h with h1 | h2
      · injection h1 with hsrc hzp
        exact ⟨r, hsrc, hzp⟩
      · exact ih hrest src zp h2
    | dir =>
      rw [packLoop_cons_dir] at h
      by_cases hmf : mf ("." :: r)
      · rw [if_pos hmf] at h
        simp at h
      · rw [if_neg hmf] at h
        rcases List.mem_cons.mp h with h1 | h2
        · exact absurd h1 (by simp)
        · exact ih hrest src zp h2

/-- If every input path strips its `./` prefix, the packing loop never hits
the strip panic. -/
theorem packLoop_no_strip_panic (qn : String) (mf : FsPath → Bool) :
    ∀ entries : List (FsPath × EntryKind),
      (∀ p k, (p, k) ∈ entries → (strip_dot_slash p).isSome = true) →
      (packLoop qn mf entries).2 ≠ some Fatal.stripPanic := by
  intro entries
  induction entries with
  | nil => intro _; simp [packLoop]
  | cons e rest ih =>
    intro hstrip
    obtain ⟨p, k⟩ := e
    have hp := hstrip p k (List.mem_cons_self _ _)
    obtain ⟨r, hr⟩ := Option.isSome_iff_exists.mp hp
    have hpr := strip_dot_slash_some hr
    subst hpr
    have hrest : ∀ p k, (p, k) ∈ rest → (strip_dot_slash p).isSome = true :=
      fun p k hm => hstrip p k (List.mem_cons_of_mem _ hm)
    cases k with
    | file =>
      rw [packLoop_cons_file]
      exact ih hrest
    | dir =>
      rw [packLoop_cons_dir]
      by_cases hmf : mf ("." :: r)
      · rw [if_pos hmf]; simp
      · rw [if_neg hmf]; exact ih hrest

/-! Claim theorems. -/




/-- C1: for every source tree and caller-supplied exclusion set, the entry
sequence of the filtered walk contains no path that equals or lies beneath
an excluded path, and a directory rejected by the exclusion check yields an
empty walk for its whole subtree. -/
theorem excluded_paths_never_emitted (zfn : String) (ex : List FsPath) :
    (∀ cs p k, (p, k) ∈ make_walkdir_iter zfn ex cs →
      ∀ e ∈ ex, ¬ e <+: p) ∧
    (∀ parent n cs, is_in_excludes (parent ++ [n]) ex = true →
      walkdir_raw zfn ex parent (FsTree.dir n cs) = []) := by
  constructor
  · intro cs p k h
    obtain ⟨q, n, _, hflt⟩ := make_walkdir_iter_mem h
    exact not_excluded_of_check (walkdir_filter_eq_false hflt).2.2
  · intro parent n cs hx
    rw [walkdir_raw, if_pos (by simp [walkdir_filter, hx])]

/-- C1 witness: with `./build` excluded, the walk of a tree holding
`build/a.txt` emits `./src` and never a path under `./build`. -/
theorem excluded_paths_never_emitted_witness :
    ¬ ([".", "build"] : FsPath) <+: [".", "src"] :=
  (excluded_paths_never_emitted "foo_1.0.0.zip" [[".", "build"]]).1
    excludeExampleTree [".", "src"] EntryKind.dir
    (by simp +decide [make_walkdir_iter, excludeExampleTree, walkdir_raw,
      walkdir_raw_list, walk_filter_map, walkdir_filter, is_filename_eq,
      is_hidden, is_in_excludes])
    [".", "build"] (List.mem_singleton.mpr rfl)

/-- C2: every `addFile` request the packing loop hands to the archive
emitter carries an archive path equal to the qualified name followed by the
source path relative to the traversal root (its path with the leading `./`
stripped). -/
theorem archive_paths_are_remapped (qn zfn : String) (mf : FsPath → Bool)
    (ex : List FsPath) (cs : List FsTree) :
    ∀ src zp,
      ZipCall.addFile src zp ∈
        (packLoop qn mf (make_walkdir_iter zfn ex cs)).1 →
      ∃ rel, src = "." :: rel ∧ zp = qn :: rel := by
  intro src zp h
  refine packLoop_addFile_shape qn mf _ ?_ src zp h
  intro p k hm
  obtain ⟨q, n, hp, _⟩ := make_walkdir_iter_mem hm
  exact ⟨q ++ [n], hp⟩

/-- C2 witness: in the hidden-entry example the only file call is
`src/main.txt`, remapped under the qualified name `foo_1.0.0`. -/
theorem archive_paths_are_remapped_witness :
    ∃ rel, ([".", "src", "main.txt"] : FsPath) = "." :: rel ∧
      (["foo_1.0.0", "src", "main.txt"] : FsPath) = "foo_1.0.0" :: rel :=
  archive_paths_are_remapped "foo_1.0.0" "foo_1.0.0.zip" (fun _ => false) []
    hiddenExampleTree [".", "src", "main.txt"] ["foo_1.0.0", "src", "main.txt"]
    (by simp +decide [make_walkdir_iter, hiddenExampleTree, walkdir_raw,
      walkdir_raw_list, walk_filter_map, walkdir_filter, is_filename_eq,
      is_hidden, is_in_excludes, packLoop, strip_dot_slash])

/-- C6: no traversal entry whose file name equals the output archive
filename is ever emitted, for every source tree (in particular on a re-run
in a directory already containing the previous output). -/
theorem zip_file_name_never_emitted (zfn : String) (ex : List FsPath)
    (cs : List FsTree) :
    ∀ p k, (p, k) ∈ make_walkdir_iter zfn ex cs →
      p.getLast? ≠ some zfn := by
  intro p k h
  obtain ⟨q, n, hp, hflt⟩ := make_walkdir_iter_mem h
  have hlast : p.getLast? = some n := by
    rw [hp, ← List.cons_append]
    exact List.getLast?_concat _
  rw [hlast]
  intro hcontra
  injection hcontra with hn
  have := (walkdir_filter_eq_false hflt).1
  rw [is_filename_eq, hn] at this
  simp at this

/-- C6 witness: on a re-run with `foo_1.0.0.zip` present in the source
tree, the emitted entry `./src` does not end in the archive name; the
walk of `rerunExampleTree` indeed emits only `./src` and
`./src/main.txt`. -/
theorem zip_file_name_never_emitted_witness :
    ([".", "src"] : FsPath).getLast? ≠ some "foo_1.0.0.zip" :=
  zip_file_name_never_emitted "foo_1.0.0.zip" [] rerunExampleTree
    [".", "src"] EntryKind.dir
    (by simp +decide [make_walkdir_iter, rerunExampleTree, walkdir_raw,
      walkdir_raw_list, walk_filter_map, walkdir_filter, is_filename_eq,
      is_hidden, is_in_excludes])

/-- C7: for every source tree, every entry yielded by the filtered walk is
the root `.` followed by components none of which begins with a dot — so a
dot-named entry is never emitted and nothing beneath one is either; a
directory entry that is hidden (dot-named and not the traversal root)
yields an empty walk for its entire subtree; and in the spec's example
tree with a populated `.git/`, `.env` and `src/main.txt`, the walk emits
exactly `./src` and `./src/main.txt`, the only file handed to the emitter
being `src/main.txt` remapped under the qualified name. -/
theorem hidden_entries_never_emitted :
    (∀ zfn : String, ∀ ex : List FsPath, ∀ cs p k,
      (p, k) ∈ make_walkdir_iter zfn ex cs →
      ∃ rel, p = "." :: rel ∧ rel ≠ [] ∧
        ∀ c ∈ rel, c.data.head? ≠ some '.') ∧
    (∀ zfn : String, ∀ ex : List FsPath, ∀ parent : FsPath, ∀ n : String,
      ∀ cs : List FsTree, is_hidden (parent ++ [n]) n = true →
      walkdir_raw zfn ex parent (FsTree.dir n cs) = []) ∧
    make_walkdir_iter "foo_1.0.0.zip" [] hiddenExampleTree =
      [([".", "src"], EntryKind.dir),
       ([".", "src", "main.txt"], EntryKind.file)] ∧
    (packLoop "foo_1.0.0" (fun _ => false)
        (make_walkdir_iter "foo_1.0.0.zip" [] hiddenExampleTree)).1.filter
        isAddFile =
      [ZipCall.addFile [".", "src", "main.txt"]
        ["foo_1.0.0", "src", "main.txt"]] := by
  refine ⟨?_, ?_, ?_, ?_⟩
  · intro zfn ex cs p k h
    exact make_walkdir_iter_no_hidden_ancestor h
  · intro zfn ex parent n cs hh
    rw [walkdir_raw, if_pos (by simp [walkdir_filter, hh])]
  · simp +decide [make_walkdir_iter, hiddenExampleTree, walkdir_raw,
      walkdir_raw_list, walk_filter_map, walkdir_filter, is_filename_eq,
      is_hidden, is_in_excludes]
  · simp +decide [make_walkdir_iter, hiddenExampleTree, walkdir_raw,
      walkdir_raw_list, walk_filter_map, walkdir_filter, is_filename_eq,
      is_hidden, is_in_excludes, packLoop, strip_dot_slash, isAddFile]

/-- C7 witness: instantiated at the emitted entry `./src/main.txt` of the
example tree (no component of `src/main.txt` starts with a dot), and at
the hidden directory `.git` whose populated subtree walks to nothing. -/
theorem hidden_entries_never_emitted_witness :
    (∃ rel, ([".", "src", "main.txt"] : FsPath) = "." :: rel ∧ rel ≠ [] ∧
      ∀ c ∈ rel, c.data.head? ≠ some ('.' : Char)) ∧
    walkdir_raw "foo_1.0.0.zip" [] ["."]
        (FsTree.dir ".git"
          [FsTree.file "config",
           FsTree.dir "objects" [FsTree.file "aa0b"]]) = [] :=
  ⟨hidden_entries_never_emitted.1 "foo_1.0.0.zip" [] hiddenExampleTree
      [".", "src", "main.txt"] EntryKind.file
      (by simp +decide [make_walkdir_iter, hiddenExampleTree, walkdir_raw,
        walkdir_raw_list, walk_filter_map, walkdir_filter, is_filename_eq,
        is_hidden, is_in_excludes]),
    hidden_entries_never_emitted.2.1 "foo_1.0.0.zip" [] ["."] ".git"
      [FsTree.file "config", FsTree.dir "objects" [FsTree.file "aa0b"]]
      (by decide)⟩

/-- C10: every path yielded by the filtered walk strips its leading `./`
successfully, so the strip panic in the packing loop is unreachable. -/
theorem strip_prefix_never_fails (zfn : String) (ex : List FsPath)
    (cs : List FsTree) :
    (∀ p k, (p, k) ∈ make_walkdir_iter zfn ex cs →
      (strip_dot_slash p).isSome = true) ∧
    (∀ qn : String, ∀ mf : FsPath → Bool,
      (packLoop qn mf (make_walkdir_iter zfn ex cs)).2 ≠
        some Fatal.stripPanic) := by
  have hstrip : ∀ p k, (p, k) ∈ make_walkdir_iter zfn ex cs →
      (strip_dot_slash p).isSome = true := by
    intro p k h
    obtain ⟨q, n, hp, _⟩ := make_walkdir_iter_mem h
    rw [hp]
    simp [strip_dot_slash]
  exact ⟨hstrip, fun qn mf => packLoop_no_strip_panic qn mf _ hstrip⟩

/-- C10 witness: instantiated at the hidden-entry example: the emitted
path `./src/main.txt` strips to `src/main.txt`, and the packing loop on
that tree does not hit the strip panic. -/
theorem strip_prefix_never_fails_witness :
    (strip_dot_slash [".", "src", "main.txt"]).isSome = true ∧
    (packLoop "foo_1.0.0" (fun _ => false)
        (make_walkdir_iter "foo_1.0.0.zip" [] hiddenExampleTree)).2 ≠
      some Fatal.stripPanic :=
  ⟨(strip_prefix_never_fails "foo_1.0.0.zip" [] hiddenExampleTree).1
      [".", "src", "main.txt"] EntryKind.file
      (by simp +decide [make_walkdir_iter, hiddenExampleTree, walkdir_raw,
        walkdir_raw_list, walk_filter_map, walkdir_filter, is_filename_eq,
        is_hidden, is_in_excludes]),
    (strip_prefix_never_fails "foo_1.0.0.zip" [] hiddenExampleTree).2
      "foo_1.0.0" (fun _ => false)⟩


/-- Janitor events are never archive `add` events nor pre-write purge
events. -/
theorem janitorLoop_events_kind :
    ∀ ms : List GlobMatch, ∀ e ∈ (janitorLoop ms).1,
      isAddEv e = false ∧ isPurgeEv e = false := by
  intro ms
  induction ms with
  | nil => intro e he; simp [janitorLoop] at he
  | cons m rest ih =>
    intro e he
    rw [janitorLoop] at he
    by_cases hf : m.isFile
    · rw [if_pos hf] at he
      by_cases hr : m.removeOk
      · rw [if_pos hr] at he
        rcases List.mem_cons.mp he with h1 | h2
        · subst h1; exact ⟨rfl, rfl⟩
        rcases List.mem_cons.mp h2 with h3 | h4
        · subst h3; exact ⟨rfl, rfl⟩
        · exact ih e h4
      · rw [if_neg hr] at he
        rcases List.mem_cons.mp he with h1 | h2
        · subst h1; exact ⟨rfl, rfl⟩
        · simp at h2
    · rw [if_neg hf] at he
      rcases List.mem_cons.mp he with h1 | h2
      · subst h1; exact ⟨rfl, rfl⟩
      rcases List.mem_cons.mp h2 with h3 | h4
      · subst h3; exact ⟨rfl, rfl⟩
      · exact ih e h4

/-- The whole janitor step emits no `add` and no purge events. -/
theorem remove_old_versions_events_kind
    (gi : Except String (List (Except String GlobMatch))) :
    ∀ e ∈ (remove_old_versions gi).1,
      isAddEv e = false ∧ isPurgeEv e = false := by
  cases gi with
  | error m => intro e he; simp [remove_old_versions] at he
  | ok entries => exact janitorLoop_events_kind (entries.filterMap resultOk)

/-- Pre-write purge events are never archive `add` events. -/
theorem purge_target_events_kind (kind : TargetKind) :
    ∀ e ∈ (purge_target kind).1, isAddEv e = false := by
  cases kind with
  | absent => intro e he; simp [purge_target] at he
  | file =>
    intro e he
    simp [purge_target] at he
    rcases he with h | h <;> subst h <;> rfl
  | dir =>
    intro e he
    simp [purge_target] at he
    rcases he with h | h <;> subst h <;> rfl

/-- The emitter segment of the main trace contains no purge events. -/
theorem add_segment_events_kind (calls : List ZipCall) :
    ∀ e ∈ Ev.addDirRoot :: calls.map Ev.addEntry, isPurgeEv e = false := by
  intro e he
  rcases List.mem_cons.mp he with h1 | h2
  · subst h1; rfl
  · obtain ⟨c, _, hc⟩ := List.mem_map.mp h2
    subst hc; rfl

/-- C3: the pre-write purge leaves nothing at the output path, it runs for
both values of the keep-old-versions flag, and its events are sequenced
before every archive `add` event: the main trace splits into a prefix with
no `add` events and a suffix with no purge events, and whenever the
janitor step does not abort, the trace is exactly janitor events, then
purge events, then the root-directory `add` followed by the packing
calls. -/
theorem purge_precedes_emitter (keepOld : Bool)
    (globInput : Except String (List (Except String GlobMatch)))
    (kind : TargetKind) (qn zfn : String) (ex : List FsPath)
    (cs : List FsTree) (mf : FsPath → Bool) :
    (purge_target kind).2 = TargetKind.absent ∧
    (∃ pre post,
      (main_run keepOld globInput kind qn zfn ex cs mf).1 = pre ++ post ∧
      (∀ e ∈ pre, isAddEv e = false) ∧
      (∀ e ∈ post, isPurgeEv e = false)) ∧
    ((remove_old_versions globInput).2 = none →
      (main_run keepOld globInput kind qn zfn ex cs mf).1 =
        (if keepOld then [] else (remove_old_versions globInput).1) ++
          (purge_target kind).1 ++
          Ev.addDirRoot ::
            (packLoop qn mf (make_walkdir_iter zfn ex cs)).1.map
              Ev.addEntry) := by
  refine ⟨by cases kind <;> rfl, ?_, ?_⟩
  · cases keepOld with
    | true =>
      refine ⟨(purge_target kind).1,
        Ev.addDirRoot ::
          (packLoop qn mf (make_walkdir_iter zfn ex cs)).1.map Ev.addEntry,
        ?_, purge_target_events_kind kind, add_segment_events_kind _⟩
      simp [main_run]
    | false =>
      cases hj : (remove_old_versions globInput).2 with
      | some f =>
        refine ⟨(remove_old_versions globInput).1, [], by simp [main_run, hj],
          fun e he => (remove_old_versions_events_kind globInput e he).1,
          by simp⟩
      | none =>
        refine ⟨(remove_old_versions globInput).1 ++ (purge_target kind).1,
          Ev.addDirRoot ::
            (packLoop qn mf (make_walkdir_iter zfn ex cs)).1.map Ev.addEntry,
          by simp [main_run, hj], ?_, add_segment_events_kind _⟩
        intro e he
        rcases List.mem_append.mp he with h1 | h2
        · exact (remove_old_versions_events_kind globInput e h1).1
        · exact purge_target_events_kind kind e h2
  · intro hj
    cases keepOld with
    | true => simp [main_run]
    | false => simp [main_run, hj]

/-- C3 witness: concrete run with an existing file at the output path and
old-version cleanup enabled. -/
theorem purge_precedes_emitter_witness :
    (purge_target TargetKind.file).2 = TargetKind.absent ∧
    (main_run false (Except.ok []) TargetKind.file "foo_1.0.0"
        "foo_1.0.0.zip" [] hiddenExampleTree (fun _ => false)).1 =
      (if false then [] else (remove_old_versions (Except.ok [])).1) ++
        (purge_target TargetKind.file).1 ++
        Ev.addDirRoot ::
          (packLoop "foo_1.0.0" (fun _ => false)
              (make_walkdir_iter "foo_1.0.0.zip" [] hiddenExampleTree)).1.map
            Ev.addEntry :=
  ⟨(purge_precedes_emitter false (Except.ok []) TargetKind.file "foo_1.0.0"
      "foo_1.0.0.zip" [] hiddenExampleTree (fun _ => false)).1,
    (purge_precedes_emitter false (Except.ok []) TargetKind.file "foo_1.0.0"
      "foo_1.0.0.zip" [] hiddenExampleTree (fun _ => false)).2.2 rfl⟩

/-- C4 counterexample: a per-entry enumeration failure from the glob is
dropped by `filter_map(Result::ok)`: the janitor finishes without a fatal
error and prints nothing, contradicting both the claimed abort and the
claimed logging. -/
theorem glob_entry_error_counterexample :
    remove_old_versions (Except.ok [Except.error "io error"]) =
      ([], none) := rfl

/-- C4 amended: a malformed pattern at glob construction is fatal, but a
per-entry enumeration failure is silently discarded: it changes neither
the events nor the outcome of the purge over the remaining matches. -/
theorem glob_errors_handling :
    (∀ msg : String,
      (remove_old_versions (Except.error msg)).2 =
        some Fatal.globConstructPanic) ∧
    (∀ (l1 l2 : List (Except String GlobMatch)) (msg : String),
      remove_old_versions (Except.ok (l1 ++ Except.error msg :: l2)) =
        remove_old_versions (Except.ok (l1 ++ l2))) := by
  refine ⟨fun msg => rfl, fun l1 l2 msg => ?_⟩
  simp [remove_old_versions, List.filterMap_append, List.filterMap_cons,
    resultOk]

/-- C5 counterexample: a directory entry whose metadata copy fails makes
the packing loop abort with the unwrap panic, producing no calls at all —
the following file entry is not processed, refuting report-and-continue. -/
theorem dir_meta_failure_counterexample :
    (packLoop "foo_1.0.0" (fun _ => true)
        [([".", "src"], EntryKind.dir),
         ([".", "a.txt"], EntryKind.file)]).2 = some Fatal.dirMetaPanic ∧
    (packLoop "foo_1.0.0" (fun _ => true)
        [([".", "src"], EntryKind.dir),
         ([".", "a.txt"], EntryKind.file)]).1 = [] := by
  exact ⟨rfl, rfl⟩

/-- C5 amended: when the directory-metadata copy of a directory entry
fails, the `unwrap` aborts the whole run at that entry: no event is
recorded for it and the remaining entries are never processed. -/
theorem dir_meta_failure_aborts (qn : String) (mf : FsPath → Bool)
    (r : FsPath) (rest : List (FsPath × EntryKind))
    (h : mf ("." :: r) = true) :
    packLoop qn mf (("." :: r, EntryKind.dir) :: rest) =
      ([], some Fatal.dirMetaPanic) := by
  rw [packLoop_cons_dir, if_pos h]

/-- C5 amended witness: the failing directory `./src` aborts the loop even
with a file entry still pending. -/
theorem dir_meta_failure_aborts_witness :
    packLoop "foo_1.0.0" (fun _ => true)
        [([".", "src"], EntryKind.dir), ([".", "a.txt"], EntryKind.file)] =
      ([], some Fatal.dirMetaPanic) :=
  dir_meta_failure_aborts "foo_1.0.0" (fun _ => true) ["src"]
    [([".", "a.txt"], EntryKind.file)] rfl

/-- C8: when the janitor loop finishes without a removal panic, its event
trace is exactly, for each successfully enumerated match in order: the
removal line first, then the deletion if the match is a regular file, or
the skip report if it is not — so a non-file match is reported and the
remaining matches are still processed; and for any match list the first
event is the removal line, printed before any deletion attempt. -/
theorem stale_match_events :
    (∀ ms : List GlobMatch, (janitorLoop ms).2 = none →
      (janitorLoop ms).1 = ms.flatMap janitor_events_for) ∧
    (∀ (m : GlobMatch) (rest : List GlobMatch),
      ((janitorLoop (m :: rest)).1).head? = some (Ev.janitorPrint m.path)) := by
  constructor
  · intro ms
    induction ms with
    | nil => intro _; rfl
    | cons m rest ih =>
      intro h
      rw [janitorLoop] at h ⊢
      by_cases hf : m.isFile
      · rw [if_pos hf] at h ⊢
        by_cases hr : m.removeOk
        · rw [if_pos hr] at h ⊢
          simp only at h
          rw [List.flatMap_cons, ← ih h]
          simp [janitor_events_for, hf]
        · rw [if_neg hr] at h
          simp at h
      · rw [if_neg hf] at h ⊢
        simp only at h
        rw [List.flatMap_cons, ← ih h]
        simp [janitor_events_for, hf]
  · intro m rest
    rw [janitorLoop]
    by_cases hf : m.isFile
    · rw [if_pos hf]
      by_cases hr : m.removeOk
      · rw [if_pos hr]; rfl
      · rw [if_neg hr]; rfl
    · rw [if_neg hf]; rfl

/-- C8 witness: a regular-file match followed by a non-file match — the
non-file match is skipped with a report, and iteration reached it. -/
theorem stale_match_events_witness :
    (janitorLoop
        [⟨["foo_1.0.0.zip"], true, true⟩,
         ⟨["foo_0.9.0.zip"], false, true⟩]).1 =
      [Ev.janitorPrint ["foo_1.0.0.zip"], Ev.janitorRemove ["foo_1.0.0.zip"],
       Ev.janitorPrint ["foo_0.9.0.zip"], Ev.janitorSkip ["foo_0.9.0.zip"]] :=
  (stale_match_events.1
      [⟨["foo_1.0.0.zip"], true, true⟩, ⟨["foo_0.9.0.zip"], false, true⟩]
      rfl).trans rfl

/-- C9: an error raised on an individual traversal entry is dropped from
the emitted sequence without affecting any other entry, and its message is
reported; the surviving entries are exactly those of the same walk without
the error, so a single unreadable entry never aborts the rest. -/
theorem walk_entry_errors_skipped_and_reported :
    ∀ (l1 l2 : List WalkItem) (msg : String),
      (walk_filter_map (l1 ++ Except.error msg :: l2)).1 =
        (walk_filter_map (l1 ++ l2)).1 ∧
      msg ∈ (walk_filter_map (l1 ++ Except.error msg :: l2)).2 := by
  intro l1 l2 msg
  induction l1 with
  | nil => simp [walk_filter_map]
  | cons it rest ih =>
    cases it with
    | ok x =>
      constructor
      · simp only [List.cons_append, walk_filter_map, List.append_eq]
        rw [ih.1]
      · simp only [List.cons_append, walk_filter_map, List.append_eq]
        exact ih.2
    | error m =>
      constructor
      · simp only [List.cons_append, walk_filter_map, List.append_eq]
        rw [ih.1]
      · simp only [List.cons_append, walk_filter_map, List.append_eq]
        exact List.mem_cons_of_mem _ ih.2

end Rfmp
